import Mathlib

/-!
Verification of the MIME email parser of the temp-mail system.

The parser lives in the email-handling worker module (`parseMimeEmail`,
`parseHeaders`, `decodeMimeHeader`, `getTextDecoder`, `decodeBase64`,
`decodeBase64ToBinary`, `decodeQuotedPrintable`, `parseBody`,
`parseMultipart`, `decodeContent`) and in `src/utils.js` (`htmlToText`).

Modelling conventions:
* A JavaScript string is a list of UTF-16 code units (`JSStr := List Nat`).
* `String.prototype.toLowerCase` is modelled on the ASCII range
  (code units 65–90 map to 97–122, all other code units are unchanged);
  every lower-casing the claims exercise happens on ASCII data.
* `TextDecoder` is modelled by `textDecodeByName`: the UTF-8,
  ISO-8859-1 and Windows-1252 decoders are implemented in full
  (WHATWG semantics, U+FFFD replacement on error); the multi-byte CJK
  decoders (gbk, gb18030, big5), whose tables are far too large to embed,
  are taken as parameters (`CJKDecoders`), so every theorem holds for
  any implementation of those three decoders.  The `TextDecoder`
  constructor never throws for the labels produced by `getTextDecoder`
  (all are valid WHATWG encoding labels), so its `try/catch` is dead and
  the decoder is represented by its resolved label.
* `atob` implements WHATWG forgiving-base64 decoding and returns `none`
  where the real `atob` throws.
* Regular-expression operations of the source are compiled by hand into
  scanners that follow the JavaScript semantics (leftmost match, global
  replacement continuing after each match); each scanner is documented
  with the regex it implements.
-/

namespace TempMail

/-- A JavaScript string: a list of UTF-16 code units. -/
abbrev JSStr := List Nat

/-- Code units of a Lean string literal (used for the ASCII literals of the
source and for concrete test inputs). -/
def cus (s : String) : JSStr := s.data.map Char.toNat

/-- The JavaScript `\s` / `String.prototype.trim` whitespace class. -/
def jsWhitespace (c : Nat) : Bool :=
  c == 0x9 || c == 0xA || c == 0xB || c == 0xC || c == 0xD || c == 0x20 ||
  c == 0xA0 || c == 0x1680 || (Nat.ble 0x2000 c && Nat.ble c 0x200A) ||
  c == 0x2028 || c == 0x2029 || c == 0x202F || c == 0x205F || c == 0x3000 ||
  c == 0xFEFF

/-- ASCII lower-casing of one code unit (model of `toLowerCase`, see header). -/
def asciiLower (c : Nat) : Nat := if 65 ≤ c ∧ c ≤ 90 then c + 32 else c

/-- `String.prototype.toLowerCase` (ASCII model). -/
def jsToLower (s : JSStr) : JSStr := s.map asciiLower

/-- `String.prototype.trim`. -/
def trimJs (s : JSStr) : JSStr :=
  ((s.dropWhile jsWhitespace).reverse.dropWhile jsWhitespace).reverse

/-- `str.replace(/\s/g, "")`. -/
def stripJsWs (s : JSStr) : JSStr := s.filter (fun c => !jsWhitespace c)

/-- `s.startsWith(p)`: does `s` start with the pattern `p`? -/
def hasPre : JSStr → JSStr → Bool
  | [], _ => true
  | _ :: _, [] => false
  | p :: ps, c :: rest => p == c && hasPre ps rest

/-- Case-insensitive (ASCII) prefix test, for `/.../i` literal matching. -/
def hasPreCI : JSStr → JSStr → Bool
  | [], _ => true
  | _ :: _, [] => false
  | p :: ps, c :: rest => asciiLower p == asciiLower c && hasPreCI ps rest

/-- `s.indexOf(pat)`: index of the first occurrence of `pat` in `s`. -/
def indexOfSub : JSStr → JSStr → Option Nat
  | [], pat => if pat = [] then some 0 else none
  | c :: rest, pat =>
    if hasPre pat (c :: rest) then some 0
    else (indexOfSub rest pat).map (· + 1)

/-- `s.includes(pat)`. -/
def containsSub (s pat : JSStr) : Bool := (indexOfSub s pat).isSome

/-- Worker for `splitSub`; the fuel bounds the number of separators and is
always sufficient (`s.length + 1`) at the call site. -/
def splitSubAux (pat : JSStr) : Nat → JSStr → List JSStr
  | 0, s => [s]
  | fuel + 1, s =>
    match indexOfSub s pat with
    | none => [s]
    | some i => s.take i :: splitSubAux pat fuel (s.drop (i + pat.length))

/-- `s.split(pat)` for a string separator. -/
def splitSub (s pat : JSStr) : List JSStr :=
  if pat = [] then s.map (fun c => [c]) else splitSubAux pat (s.length + 1) s

/-- `s.split(/\r?\n/)`. -/
def splitLines : JSStr → List JSStr
  | [] => [[]]
  | 13 :: 10 :: rest => [] :: splitLines rest
  | 10 :: rest => [] :: splitLines rest
  | c :: rest =>
    match splitLines rest with
    | l :: ls => (c :: l) :: ls
    | [] => [[c]]

/-! ### Header mappings (JavaScript plain objects used as dictionaries) -/

/-- A JavaScript object used as a string-keyed dictionary, with insertion
order preserved; assignment to an existing key overwrites in place. -/
abbrev Headers := List (JSStr × JSStr)

/-- `obj[k] = v`. -/
def hset (hs : Headers) (k v : JSStr) : Headers :=
  if hs.any (fun p => p.1 == k) then
    hs.map (fun p => if p.1 == k then (k, v) else p)
  else hs ++ [(k, v)]

/-- `obj[k] || ""`: lookup defaulting to the empty string (the source always
reads headers with `|| ""` or an equivalent falsy-default). -/
def hgetD (hs : Headers) (k : JSStr) : JSStr :=
  match hs.find? (fun p => p.1 == k) with
  | some p => p.2
  | none => []

/-! ### Base64 (`atob`, WHATWG forgiving-base64) -/

/-- ASCII whitespace removed by forgiving-base64 decode. -/
def asciiWsB64 (c : Nat) : Bool :=
  c == 9 || c == 10 || c == 12 || c == 13 || c == 32

/-- Index of a code unit in the standard base64 alphabet. -/
def b64Index (c : Nat) : Option Nat :=
  if 65 ≤ c ∧ c ≤ 90 then some (c - 65)
  else if 97 ≤ c ∧ c ≤ 122 then some (c - 97 + 26)
  else if 48 ≤ c ∧ c ≤ 57 then some (c - 48 + 52)
  else if c = 43 then some 62
  else if c = 47 then some 63
  else none

/-- Reassemble bytes from a list of sextets (forgiving-base64: a trailing
group of 2 or 3 sextets contributes 1 or 2 bytes, leftover bits dropped). -/
def b64Bytes : List Nat → Option (List Nat)
  | [] => some []
  | [_] => none
  | [a, b] => some [a * 4 + b / 16]
  | [a, b, c] => some [a * 4 + b / 16, (b % 16) * 16 + c / 4]
  | a :: b :: c :: d :: rest =>
    (b64Bytes rest).map
      (fun bs => (a * 4 + b / 16) :: ((b % 16) * 16 + c / 4) :: ((c % 4) * 64 + d) :: bs)

/-- Strip up to two trailing `=` padding characters. -/
def dropTrailingEq (t : JSStr) : JSStr :=
  match t.reverse with
  | 61 :: 61 :: r => r.reverse
  | 61 :: r => r.reverse
  | _ => t

/-- `atob`: forgiving-base64 decode to a byte list; `none` where the real
`atob` throws `InvalidCharacterError`. -/
def atobJs (s : JSStr) : Option (List Nat) :=
  let t := s.filter (fun c => !asciiWsB64 c)
  let t := if t.length % 4 = 0 then dropTrailingEq t else t
  if t.length % 4 = 1 then none
  else (t.mapM b64Index).bind b64Bytes

/-! ### UTF-8 encode (`TextEncoder`) and decode (`TextDecoder("utf-8")`) -/

/-- UTF-8 bytes of one Unicode scalar value. -/
def encodeCodepoint (cp : Nat) : List Nat :=
  if cp < 0x80 then [cp]
  else if cp < 0x800 then [0xC0 + cp / 64, 0x80 + cp % 64]
  else if cp < 0x10000 then [0xE0 + cp / 4096, 0x80 + cp / 64 % 64, 0x80 + cp % 64]
  else [0xF0 + cp / 262144, 0x80 + cp / 4096 % 64, 0x80 + cp / 64 % 64, 0x80 + cp % 64]

/-- `TextEncoder().encode`: UTF-16 code units to UTF-8 bytes, surrogate
pairs combined, lone surrogates replaced by U+FFFD. -/
def utf8Encode : JSStr → List Nat
  | [] => []
  | [c] =>
    if (0xD800 ≤ c ∧ c ≤ 0xDBFF) ∨ (0xDC00 ≤ c ∧ c ≤ 0xDFFF) then
      encodeCodepoint 0xFFFD
    else encodeCodepoint c
  | c :: c2 :: rest =>
    if 0xD800 ≤ c ∧ c ≤ 0xDBFF then
      if 0xDC00 ≤ c2 ∧ c2 ≤ 0xDFFF then
        encodeCodepoint (0x10000 + (c - 0xD800) * 1024 + (c2 - 0xDC00)) ++ utf8Encode rest
      else encodeCodepoint 0xFFFD ++ utf8Encode (c2 :: rest)
    else if 0xDC00 ≤ c ∧ c ≤ 0xDFFF then encodeCodepoint 0xFFFD ++ utf8Encode (c2 :: rest)
    else encodeCodepoint c ++ utf8Encode (c2 :: rest)

/-- State of the WHATWG UTF-8 decoder. -/
structure U8State where
  cp : Nat
  needed : Nat
  lower : Nat
  upper : Nat
  deriving Repr, DecidableEq

/-- UTF-16 code units of one Unicode scalar value. -/
def u8Emit (cp : Nat) : List Nat :=
  if cp < 0x10000 then [cp]
  else [0xD800 + (cp - 0x10000) / 1024, 0xDC00 + (cp - 0x10000) % 1024]

/-- Handle one byte in the initial decoder state. -/
def u8Start (b : Nat) : List Nat × U8State :=
  if b ≤ 0x7F then ([b], ⟨0, 0, 0x80, 0xBF⟩)
  else if 0xC2 ≤ b ∧ b ≤ 0xDF then ([], ⟨b - 0xC0, 1, 0x80, 0xBF⟩)
  else if 0xE0 ≤ b ∧ b ≤ 0xEF then
    ([], ⟨b - 0xE0, 2, if b = 0xE0 then 0xA0 else 0x80, if b = 0xED then 0x9F else 0xBF⟩)
  else if 0xF0 ≤ b ∧ b ≤ 0xF4 then
    ([], ⟨b - 0xF0, 3, if b = 0xF0 then 0x90 else 0x80, if b = 0xF4 then 0x8F else 0xBF⟩)
  else ([0xFFFD], ⟨0, 0, 0x80, 0xBF⟩)

/-- WHATWG UTF-8 decode loop (non-fatal mode: errors emit U+FFFD; a bad
continuation byte is reprocessed in the initial state). -/
def u8Loop : U8State → List Nat → List Nat
  | st, [] => if st.needed = 0 then [] else [0xFFFD]
  | st, b :: rest =>
    if st.needed = 0 then
      let p := u8Start b
      p.1 ++ u8Loop p.2 rest
    else if st.lower ≤ b ∧ b ≤ st.upper then
      let cp2 := st.cp * 64 + (b - 0x80)
      if st.needed = 1 then u8Emit cp2 ++ u8Loop ⟨0, 0, 0x80, 0xBF⟩ rest
      else u8Loop ⟨cp2, st.needed - 1, 0x80, 0xBF⟩ rest
    else
      let p := u8Start b
      0xFFFD :: (p.1 ++ u8Loop p.2 rest)

/-- `new TextDecoder("utf-8").decode(bytes)`. -/
def utf8Decode (bs : List Nat) : JSStr := u8Loop ⟨0, 0, 0x80, 0xBF⟩ bs

/-- Windows-1252 single-byte decode table. -/
def win1252Map (b : Nat) : Nat :=
  if b = 0x80 then 0x20AC else if b = 0x82 then 0x201A
  else if b = 0x83 then 0x192 else if b = 0x84 then 0x201E
  else if b = 0x85 then 0x2026 else if b = 0x86 then 0x2020
  else if b = 0x87 then 0x2021 else if b = 0x88 then 0x2C6
  else if b = 0x89 then 0x2030 else if b = 0x8A then 0x160
  else if b = 0x8B then 0x2039 else if b = 0x8C then 0x152
  else if b = 0x8E then 0x17D else if b = 0x91 then 0x2018
  else if b = 0x92 then 0x2019 else if b = 0x93 then 0x201C
  else if b = 0x94 then 0x201D else if b = 0x95 then 0x2022
  else if b = 0x96 then 0x2013 else if b = 0x97 then 0x2014
  else if b = 0x98 then 0x2DC else if b = 0x99 then 0x2122
  else if b = 0x9A then 0x161 else if b = 0x9B then 0x203A
  else if b = 0x9C then 0x153 else if b = 0x9E then 0x17E
  else if b = 0x9F then 0x178 else b

/-- The three multi-byte CJK decoders (`TextDecoder` for gbk, gb18030, big5),
whose code tables are not embedded; every theorem is parametric in them. -/
structure CJKDecoders where
  gbk : List Nat → JSStr
  gb18030 : List Nat → JSStr
  big5 : List Nat → JSStr

/-- A concrete (degenerate) instance used to instantiate witness theorems;
no witness computation ever reaches a CJK decoder. -/
def trivialDecoders : CJKDecoders := ⟨fun _ => [], fun _ => [], fun _ => []⟩

/-! ### `getTextDecoder` (charset label resolution) -/

/-- The character class kept by `replace(/[^a-z0-9-]/g, "")`: lower-case
letters, digits, and hyphen. -/
def keepChar (c : Nat) : Bool :=
  (Nat.ble 97 c && Nat.ble c 122) || (Nat.ble 48 c && Nat.ble c 57) || c == 45

/-- `(charset || "utf-8").toLowerCase().replace(/[^a-z0-9-]/g, "")`. -/
def normalizeCharset (cs : JSStr) : JSStr :=
  (jsToLower (if cs = [] then cus "utf-8" else cs)).filter keepChar

/-- The `charsetMap` object lookup of `getTextDecoder`. -/
def charsetMapLookup (n : JSStr) : Option JSStr :=
  if n = cus "gbk" then some (cus "gbk")
  else if n = cus "gb2312" then some (cus "gbk")
  else if n = cus "gb18030" then some (cus "gb18030")
  else if n = cus "big5" then some (cus "big5")
  else if n = cus "iso88591" then some (cus "iso-8859-1")
  else if n = cus "iso-8859-1" then some (cus "iso-8859-1")
  else if n = cus "windows1252" then some (cus "windows-1252")
  else if n = cus "windows-1252" then some (cus "windows-1252")
  else if n = cus "utf8" then some (cus "utf-8")
  else if n = cus "utf-8" then some (cus "utf-8")
  else none

/-- `getTextDecoder(charset)`, represented by the resolved label it hands to
the `TextDecoder` constructor (which succeeds for every label below). -/
def getTextDecoderName (cs : JSStr) : JSStr :=
  (charsetMapLookup (normalizeCharset cs)).getD (cus "utf-8")

/-- `decoder.decode(bytes)` for a resolved decoder label. -/
def textDecodeByName (d : CJKDecoders) (name : JSStr) (bs : List Nat) : JSStr :=
  if name = cus "gbk" then d.gbk bs
  else if name = cus "gb18030" then d.gb18030 bs
  else if name = cus "big5" then d.big5 bs
  else if name = cus "iso-8859-1" then bs
  else if name = cus "windows-1252" then bs.map win1252Map
  else utf8Decode bs

/-- `getTextDecoder(charset).decode(bytes)`. -/
def runTextDecoder (d : CJKDecoders) (cs : JSStr) (bs : List Nat) : JSStr :=
  textDecodeByName d (getTextDecoderName cs) bs

/-! ### `decodeBase64`, `decodeBase64ToBinary`, `decodeQuotedPrintable` -/

/-- `decodeBase64(str, charset)`: base64-decode (whitespace stripped) then
charset-decode; on `atob` failure the `catch` returns `str` unchanged. -/
def decodeBase64 (d : CJKDecoders) (s cs : JSStr) : JSStr :=
  match atobJs (stripJsWs s) with
  | some bs => runTextDecoder d cs bs
  | none => s

/-- `decodeBase64ToBinary(str)`: base64-decode to raw bytes; on failure the
`catch` returns the UTF-8 encoding of the original string. -/
def decodeBase64ToBinary (s : JSStr) : List Nat :=
  match atobJs (stripJsWs s) with
  | some bs => bs
  | none => utf8Encode s

/-- `str.replace(/=\r?\n/g, "")`: remove soft line breaks. -/
def removeSoftBreaks : JSStr → JSStr
  | 61 :: 13 :: 10 :: rest => removeSoftBreaks rest
  | 61 :: 10 :: rest => removeSoftBreaks rest
  | c :: rest => c :: removeSoftBreaks rest
  | [] => []

/-- `/^[0-9A-Fa-f]$/` on one code unit. -/
def isHexDigit (c : Nat) : Bool :=
  (Nat.ble 48 c && Nat.ble c 57) || (Nat.ble 65 c && Nat.ble c 70) ||
  (Nat.ble 97 c && Nat.ble c 102)

/-- Value of a hex digit. -/
def hexVal (c : Nat) : Nat :=
  if c ≤ 57 then c - 48 else if c ≤ 70 then c - 55 else c - 87

/-- The `while (i < cleaned.length)` byte-collection loop of
`decodeQuotedPrintable`, indexed exactly as the source
(an `=` is expanded only when `i + 2 < cleaned.length` and the two
following code units are hex digits).  The fuel is always sufficient at
the call site (`cleaned.length + 1`). -/
def qpScanAux (s : JSStr) : Nat → Nat → List Nat
  | 0, _ => []
  | fuel + 1, i =>
    if i < s.length then
      if s.getD i 0 == 61 && decide (i + 2 < s.length) &&
         isHexDigit (s.getD (i + 1) 0) && isHexDigit (s.getD (i + 2) 0) then
        (hexVal (s.getD (i + 1) 0) * 16 + hexVal (s.getD (i + 2) 0)) ::
          qpScanAux s fuel (i + 3)
      else s.getD i 0 :: qpScanAux s fuel (i + 1)
    else []

/-- The byte phase of `decodeQuotedPrintable`: soft-break removal followed by
the scanning loop. -/
def decodeQuotedPrintableBytes (s : JSStr) : List Nat :=
  let cleaned := removeSoftBreaks s
  qpScanAux cleaned (cleaned.length + 1) 0

/-- `decodeQuotedPrintable(str, charset)` (the `try` never throws: the byte
loop is total and a non-fatal `TextDecoder` does not raise). -/
def decodeQuotedPrintable (d : CJKDecoders) (s cs : JSStr) : JSStr :=
  runTextDecoder d cs (decodeQuotedPrintableBytes s)

/-! ### `decodeMimeHeader` (RFC 2047 encoded words)

The source replaces, globally and case-insensitively, the pattern
`=\?([^?]+)\?([BQ])\?([^?]*)\?=`.  Because `[^?]` cannot match `?`, the
regex match at a given start position is deterministic: the charset is the
maximal non-`?` run (non-empty), the encoding is one `B`/`Q` letter, the
text is the next maximal (possibly empty) non-`?` run, closed by `?=`. -/

/-- Try to match one encoded word at the start of `l`; on success return
the charset, the encoding letter, the text, and the remainder of the
string after the closing `?=`. -/
def matchEncWord (l : JSStr) : Option (JSStr × Nat × JSStr × JSStr) :=
  match l with
  | 61 :: 63 :: rest =>
    let p := rest.span (fun c => c != 63)
    if p.1 = [] then none
    else
      match p.2 with
      | 63 :: e :: 63 :: r2 =>
        if e == 66 || e == 98 || e == 81 || e == 113 then
          let q := r2.span (fun c => c != 63)
          match q.2 with
          | 63 :: 61 :: r4 => some (p.1, e, q.1, r4)
          | _ => none
        else none
      | _ => none
  | _ => none

/-- The replacement callback of `decodeMimeHeader`: `B` (or `b`) tokens are
base64-decoded, `Q`/`q` tokens have `_` mapped to space and are then
quoted-printable decoded.  Its `try/catch` is dead code: `decodeBase64`
and `decodeQuotedPrintable` catch their own failures internally. -/
def encWordDecode (d : CJKDecoders) (cs : JSStr) (e : Nat) (txt : JSStr) : JSStr :=
  if e == 66 || e == 98 then decodeBase64 d txt cs
  else decodeQuotedPrintable d (txt.map (fun c => if c == 95 then 32 else c)) cs

/-- Global-replacement scan of `decodeMimeHeader`: leftmost match, continue
after the replaced token.  The fuel is always sufficient at the call site
(`s.length + 1`), since each step consumes at least one code unit. -/
def mimeScanAux (d : CJKDecoders) : Nat → JSStr → JSStr
  | 0, s => s
  | fuel + 1, s =>
    match s with
    | [] => []
    | c :: rest =>
      match matchEncWord s with
      | some (cs, e, txt, r) => encWordDecode d cs e txt ++ mimeScanAux d fuel r
      | none => c :: mimeScanAux d fuel rest

/-- `decodeMimeHeader(str)` (the `if (!str) return ""` guard coincides with
the scan of the empty string). -/
def decodeMimeHeader (d : CJKDecoders) (s : JSStr) : JSStr :=
  mimeScanAux d (s.length + 1) s

/-! ### `parseHeaders` -/

/-- Loop state of `parseHeaders`: the header being accumulated and the
mapping built so far. -/
structure PHState where
  curKey : JSStr
  curVal : JSStr
  hs : Headers

/-- Store the current header, if any (`headers[currentKey.toLowerCase()] =
decodeMimeHeader(currentValue)`). -/
def phFlush (d : CJKDecoders) (st : PHState) : Headers :=
  if st.curKey ≠ [] then hset st.hs (jsToLower st.curKey) (decodeMimeHeader d st.curVal)
  else st.hs

/-- One iteration of the `for (const line of lines)` loop of `parseHeaders`. -/
def phLine (d : CJKDecoders) (st : PHState) (line : JSStr) : PHState :=
  if (match line with | c :: _ => jsWhitespace c | [] => false) then
    { st with curVal := st.curVal ++ 32 :: trimJs line }
  else
    let hs2 := phFlush d st
    match indexOfSub line [58] with
    | some ci =>
      if 0 < ci then ⟨trimJs (line.take ci), trimJs (line.drop (ci + 1)), hs2⟩
      else { st with hs := hs2 }
    | none => { st with hs := hs2 }

/-- `parseHeaders(headersRaw)`. -/
def parseHeaders (d : CJKDecoders) (raw : JSStr) : Headers :=
  phFlush d ((splitLines raw).foldl (phLine d) ⟨[], [], []⟩)

/-! ### Content-Type / Content-Disposition parameter extraction

The source uses `/attr=["']?([^...]+)["']?/i`.  The capture at a given
start is deterministic (the excluded-character classes contain both quote
characters), and on a failed capture the regex engine advances one
position, i.e. resumes at the next case-insensitive occurrence of
`attr=`. -/

/-- Character class `[^"';\s]` (boundary and charset captures). -/
def ctParamClass (c : Nat) : Bool :=
  !(c == 34 || c == 39 || c == 59 || jsWhitespace c)

/-- Character class `[^"';\r\n]` (filename capture). -/
def filenameClass (c : Nat) : Bool :=
  !(c == 34 || c == 39 || c == 59 || c == 13 || c == 10)

/-- Capture `["']?([cls]+)` at the start of `s`. -/
def paramCapture (cls : Nat → Bool) (s : JSStr) : Option JSStr :=
  match s with
  | [] => none
  | c :: rest =>
    if c == 34 || c == 39 then
      let cap := rest.takeWhile cls
      if cap = [] then none else some cap
    else
      let cap := (c :: rest).takeWhile cls
      if cap = [] then none else some cap

/-- Search `s` for `attr=` (case-insensitively) followed by a successful
capture; `attr` is given in lower case. -/
def findParamAux (attr : JSStr) (cls : Nat → Bool) : JSStr → Option JSStr
  | [] => none
  | c :: rest =>
    if hasPreCI (attr ++ [61]) (c :: rest) then
      match paramCapture cls (List.drop (attr.length + 1) (c :: rest)) with
      | some cap => some cap
      | none => findParamAux attr cls rest
    else findParamAux attr cls rest

/-- `extractCharset(contentType)`: the `charset=` parameter, `utf-8` when
the argument is falsy or the pattern does not match. -/
def extractCharset (ct : JSStr) : JSStr :=
  if ct = [] then cus "utf-8"
  else
    match findParamAux (cus "charset") ctParamClass ct with
    | some cap => cap
    | none => cus "utf-8"

/-! ### `decodeContent`, `parseMultipart`, `parseBody`, `parseMimeEmail` -/

/-- `decodeContent(content, transferEncoding, charset)`. -/
def decodeContent (d : CJKDecoders) (content te cs : JSStr) : JSStr :=
  if content = [] then []
  else
    let e := jsToLower te
    if containsSub e (cus "base64") then decodeBase64 d content cs
    else if containsSub e (cus "quoted-printable") then decodeQuotedPrintable d content cs
    else content

/-- A transient multipart part: its own header block and raw body. -/
structure MimePart where
  headers : Headers
  body : JSStr
  deriving Repr, DecidableEq

/-- `section.replace(/\r\n$/, "")`. -/
def dropTrailingCRLF (s : JSStr) : JSStr :=
  match s.reverse with
  | 10 :: 13 :: r => r.reverse
  | _ => s

/-- One iteration of the `for (let i = 1; ...)` loop of `parseMultipart`. -/
def mpSection (d : CJKDecoders) (parts : List MimePart) (sec : JSStr) : List MimePart :=
  let t := trimJs sec
  if hasPre (cus "--") t || t = [] then parts
  else
    match indexOfSub t (cus "\r\n\r\n") with
    | none => parts
    | some k =>
      parts ++ [⟨parseHeaders d (t.take k), dropTrailingCRLF (t.drop (k + 4))⟩]

/-- `parseMultipart(body, boundary)`: split on every occurrence of
`"--" + boundary`, skip the preamble (section 0), terminator sections
(starting `--` after trimming), empty sections, and sections without a
`\r\n\r\n` header separator. -/
def parseMultipart (d : CJKDecoders) (body boundary : JSStr) : List MimePart :=
  ((splitSub body (cus "--" ++ boundary)).drop 1).foldl (mpSection d) []

/-- An attachment produced by `parseBody`. -/
structure Attachment where
  filename : JSStr
  contentType : JSStr
  content : List Nat
  size : Nat
  deriving Repr, DecidableEq

/-- The accumulating result of `parseBody`. -/
structure BodyResult where
  textContent : JSStr
  htmlContent : JSStr
  attachments : List Attachment
  deriving Repr, DecidableEq

/-- `partType.split(";")[0]`. -/
def takeBeforeSemi (s : JSStr) : JSStr := s.takeWhile (fun c => c != 59)

/-- Classification of one immediate child of a nested multipart part
(only `text/html` and `text/plain` children are used; attachments inside
a nested multipart are not collected). -/
def classifyNested (d : CJKDecoders) (st : BodyResult) (p : MimePart) : BodyResult :=
  let nt := jsToLower (hgetD p.headers (cus "content-type"))
  let ne := hgetD p.headers (cus "content-transfer-encoding")
  let ncs := extractCharset (hgetD p.headers (cus "content-type"))
  if containsSub nt (cus "text/html") then
    { st with htmlContent := decodeContent d p.body ne ncs }
  else if containsSub nt (cus "text/plain") then
    { st with textContent := decodeContent d p.body ne ncs }
  else st

/-- One iteration of the `for (const part of parts)` loop of `parseBody`. -/
def processPart (d : CJKDecoders) (st : BodyResult) (p : MimePart) : BodyResult :=
  let partType := jsToLower (hgetD p.headers (cus "content-type"))
  let disposition := jsToLower (hgetD p.headers (cus "content-disposition"))
  let te := hgetD p.headers (cus "content-transfer-encoding")
  if containsSub disposition (cus "attachment") then
    let fn := findParamAux (cus "filename") filenameClass disposition
    let enc := jsToLower te
    let content :=
      if containsSub enc (cus "base64") then decodeBase64ToBinary p.body
      else if containsSub enc (cus "quoted-printable") then
        utf8Encode (decodeQuotedPrintable d p.body (cus "utf-8"))
      else utf8Encode p.body
    { st with
        attachments := st.attachments ++
          [{ filename := decodeMimeHeader d (fn.getD (cus "attachment")),
             contentType := trimJs (takeBeforeSemi partType),
             content := content,
             size := content.length }] }
  else if containsSub partType (cus "text/html") then
    { st with htmlContent :=
        decodeContent d p.body te (extractCharset (hgetD p.headers (cus "content-type"))) }
  else if containsSub partType (cus "text/plain") then
    { st with textContent :=
        decodeContent d p.body te (extractCharset (hgetD p.headers (cus "content-type"))) }
  else if containsSub partType (cus "multipart") then
    match findParamAux (cus "boundary") ctParamClass partType with
    | some nb => (parseMultipart d p.body nb).foldl (classifyNested d) st
    | none => st
  else st

/-- `parseBody(bodyRaw, contentType, transferEncoding)`. -/
def parseBody (d : CJKDecoders) (bodyRaw ct te : JSStr) : BodyResult :=
  let ctLower := jsToLower ct
  if containsSub ctLower (cus "multipart") then
    match findParamAux (cus "boundary") ctParamClass ct with
    | some boundary => (parseMultipart d bodyRaw boundary).foldl (processPart d) ⟨[], [], []⟩
    | none => ⟨[], [], []⟩
  else if containsSub ctLower (cus "text/html") then
    ⟨[], decodeContent d bodyRaw te (extractCharset ct), []⟩
  else
    ⟨decodeContent d bodyRaw te (extractCharset ct), [], []⟩

/-- The parsed email produced by `parseMimeEmail`. -/
structure ParsedEmail where
  headers : Headers
  textContent : JSStr
  htmlContent : JSStr
  attachments : List Attachment
  rawEmail : JSStr
  deriving Repr, DecidableEq

/-- The header/body split of `parseMimeEmail`: the message is cut at the
first `\r\n\r\n` only when its index is positive; otherwise (no
occurrence, or an occurrence at index 0) the whole message is the header
block and the body is empty. -/
def splitHeadBody (raw : JSStr) : JSStr × JSStr :=
  match indexOfSub raw (cus "\r\n\r\n") with
  | some i => if 0 < i then (raw.take i, raw.drop (i + 4)) else (raw, [])
  | none => (raw, [])

/-- `parseMimeEmail(message)` on the raw message text (the asynchronous
read of the stream is outside the model). -/
def parseMimeEmail (d : CJKDecoders) (raw : JSStr) : ParsedEmail :=
  let hb := splitHeadBody raw
  let headers := parseHeaders d hb.1
  let ct := let v := hgetD headers (cus "content-type")
            if v = [] then cus "text/plain" else v
  let te := hgetD headers (cus "content-transfer-encoding")
  let b := parseBody d hb.2 ct te
  ⟨headers, b.textContent, b.htmlContent, b.attachments, raw⟩

/-! ### `htmlToText` (src/utils.js) -/

/-- Worker for global literal replacement (`s.replace(pat, rep)` with a
string pattern made global): leftmost match, continue after the match;
the replacement is not rescanned.  Fuel `s.length + 1` always suffices. -/
def replaceAllAux (pat rep : JSStr) : Nat → JSStr → JSStr
  | 0, s => s
  | fuel + 1, s =>
    match s with
    | [] => []
    | c :: rest =>
      if hasPre pat (c :: rest) then
        rep ++ replaceAllAux pat rep fuel (List.drop pat.length (c :: rest))
      else c :: replaceAllAux pat rep fuel rest

/-- Global replacement of the literal `pat` by `rep`. -/
def replaceAllSub (s pat rep : JSStr) : JSStr := replaceAllAux pat rep (s.length + 1) s

/-- Find the first case-insensitive occurrence of `pat` and return the
remainder of the string after it. -/
def findAfterCI (pat : JSStr) : JSStr → Option JSStr
  | [] => if pat = [] then some [] else none
  | c :: rest =>
    if hasPreCI pat (c :: rest) then some (List.drop pat.length (c :: rest))
    else findAfterCI pat rest

/-- `replace(/<tag[^>]*>[\s\S]*?<\/tag>/gi, "")` for `tagOpen = "<tag"`,
`tagClose = "</tag>"`: at each case-insensitive occurrence of the open
tag, run to the first `>`, then drop lazily up to the first
case-insensitive close tag; if either is missing the occurrence does not
match and scanning resumes one position further. -/
def removeBlockAux (tagOpen tagClose : JSStr) : Nat → JSStr → JSStr
  | 0, s => s
  | fuel + 1, s =>
    match s with
    | [] => []
    | c :: rest =>
      if hasPreCI tagOpen (c :: rest) then
        match (List.drop tagOpen.length (c :: rest)).dropWhile (fun x => x != 62) with
        | 62 :: r2 =>
          match findAfterCI tagClose r2 with
          | some r3 => removeBlockAux tagOpen tagClose fuel r3
          | none => c :: removeBlockAux tagOpen tagClose fuel rest
        | _ => c :: removeBlockAux tagOpen tagClose fuel rest
      else c :: removeBlockAux tagOpen tagClose fuel rest

/-- `replace(/<[^>]+>/g, " ")`: every `<`, at least one non-`>` character,
then `>` becomes one space; an unterminated `<` (or `<>`) is literal. -/
def stripTagsAux : Nat → JSStr → JSStr
  | 0, s => s
  | fuel + 1, s =>
    match s with
    | [] => []
    | 60 :: rest =>
      match rest.dropWhile (fun x => x != 62) with
      | 62 :: r2 =>
        if rest.takeWhile (fun x => x != 62) = [] then 60 :: stripTagsAux fuel rest
        else 32 :: stripTagsAux fuel r2
      | _ => 60 :: stripTagsAux fuel rest
    | c :: rest => c :: stripTagsAux fuel rest

/-- Collapse runs of `32` to a single `32` (the second phase of
`replace(/\s+/g, " ")` after whitespace is canonicalised to spaces). -/
def dedupe32 : JSStr → JSStr
  | [] => []
  | [c] => [c]
  | a :: b :: rest =>
    if a == 32 && b == 32 then dedupe32 (b :: rest) else a :: dedupe32 (b :: rest)

/-- `replace(/\s+/g, " ")`. -/
def collapseWs (s : JSStr) : JSStr :=
  dedupe32 (s.map (fun c => if jsWhitespace c then 32 else c))

/-- `replace(/<style[^>]*>[\s\S]*?<\/style>/gi, "")`. -/
def removeStyleBlocks (s : JSStr) : JSStr :=
  removeBlockAux (cus "<style") (cus "</style>") (s.length + 1) s

/-- `replace(/<script[^>]*>[\s\S]*?<\/script>/gi, "")`. -/
def removeScriptBlocks (s : JSStr) : JSStr :=
  removeBlockAux (cus "<script") (cus "</script>") (s.length + 1) s

/-- `replace(/<[^>]+>/g, " ")`. -/
def stripTags (s : JSStr) : JSStr := stripTagsAux (s.length + 1) s

/-- `htmlToText(html)` from src/utils.js. -/
def htmlToText (html : JSStr) : JSStr :=
  if html = [] then []
  else
    trimJs (collapseWs
      (replaceAllSub
        (replaceAllSub
          (replaceAllSub
            (replaceAllSub
              (replaceAllSub
                (stripTags (removeScriptBlocks (removeStyleBlocks html)))
                (cus "&nbsp;") (cus " "))
              (cus "&amp;") (cus "&"))
            (cus "&lt;") (cus "<"))
          (cus "&gt;") (cus ">"))
        (cus "&quot;") (cus "\"")))

/-! ## Specification-side definitions

These are written from the specification's wording (not from the source)
and serve only as comparison points for refinement theorems. -/

/-- The quoted-printable scan as the specification words it: scan the
(soft-break-free) text left to right; an `=` followed by exactly two hex
digits emits the byte those digits denote; any other character emits its
own code unit as a byte.  Compared against the source's index loop
`qpScanAux` below. -/
def qpSpecScan : List Nat → List Nat
  | 61 :: a :: b :: rest =>
    if isHexDigit a && isHexDigit b then
      (hexVal a * 16 + hexVal b) :: qpSpecScan rest
    else 61 :: qpSpecScan (a :: b :: rest)
  | c :: rest => c :: qpSpecScan rest
  | [] => []

/-! ## Helper lemmas -/

theorem qpSpecScan_cons_ne {c : Nat} {t : List Nat} (hc : c ≠ 61) :
    qpSpecScan (c :: t) = c :: qpSpecScan t := by
  rw [qpSpecScan.eq_def]
  split
  · rename_i a b rest heq
    injection heq with h1 h2
    exact absurd h1 hc
  · rename_i c2 rest2 _ heq
    injection heq with h1 h2
    rw [← h1, ← h2]
  · rename_i heq
    exact absurd heq (List.cons_ne_nil c t)

theorem qpScanAux_eq_spec (s : JSStr) : ∀ (fuel i : Nat), s.length - i ≤ fuel →
    qpScanAux s fuel i = qpSpecScan (s.drop i) := by
  intro fuel
  induction fuel with
  | zero =>
    intro i h
    rw [List.drop_eq_nil_of_le (by omega)]
    rfl
  | succ n ih =>
    intro i h
    by_cases hi : i < s.length
    · have hdrop : s.drop i = s[i] :: s.drop (i + 1) := (List.getElem_cons_drop s i hi).symm
      have hgd : s.getD i 0 = s[i] := List.getD_eq_getElem s 0 hi
      by_cases hcond : (s.getD i 0 == 61 && decide (i + 2 < s.length) &&
          isHexDigit (s.getD (i + 1) 0) && isHexDigit (s.getD (i + 2) 0)) = true
      · have hparts := hcond
        simp only [Bool.and_eq_true, beq_iff_eq, decide_eq_true_eq] at hparts
        obtain ⟨⟨⟨h61, hlt⟩, ha⟩, hb⟩ := hparts
        have h1 : i + 1 < s.length := by omega
        have hdrop1 : s.drop (i + 1) = s[i + 1] :: s.drop (i + 2) :=
          (List.getElem_cons_drop s (i + 1) h1).symm
        have hdrop2 : s.drop (i + 2) = s[i + 2] :: s.drop (i + 3) :=
          (List.getElem_cons_drop s (i + 2) hlt).symm
        have hga : s.getD (i + 1) 0 = s[i + 1] := List.getD_eq_getElem s 0 h1
        have hgb : s.getD (i + 2) 0 = s[i + 2] := List.getD_eq_getElem s 0 hlt
        have hLHS : qpScanAux s (n + 1) i =
            (hexVal (s.getD (i + 1) 0) * 16 + hexVal (s.getD (i + 2) 0)) ::
              qpScanAux s n (i + 3) := by
          simp only [qpScanAux]
          rw [if_pos hi, if_pos hcond]
        have h61e : s[i] = 61 := by rw [← hgd]; exact h61
        rw [hLHS, hdrop, hdrop1, hdrop2, h61e]
        have hRHS : qpSpecScan (61 :: s[i + 1] :: s[i + 2] :: s.drop (i + 3)) =
            (hexVal s[i + 1] * 16 + hexVal s[i + 2]) :: qpSpecScan (s.drop (i + 3)) := by
          rw [qpSpecScan]
          rw [if_pos (show (isHexDigit s[i + 1] && isHexDigit s[i + 2]) = true by
            rw [← hga, ← hgb, ha, hb]; rfl)]
        rw [hRHS, hga, hgb, ih (i + 3) (by omega)]
      · have hLHS : qpScanAux s (n + 1) i = s.getD i 0 :: qpScanAux s n (i + 1) := by
          simp only [qpScanAux]
          rw [if_pos hi, if_neg hcond]
        rw [hLHS, ih (i + 1) (by omega), hdrop, hgd]
        by_cases h61 : s[i] = 61
        · by_cases hlt : i + 2 < s.length
          · have h1 : i + 1 < s.length := by omega
            have hdrop1 : s.drop (i + 1) = s[i + 1] :: s.drop (i + 2) :=
              (List.getElem_cons_drop s (i + 1) h1).symm
            have hdrop2 : s.drop (i + 2) = s[i + 2] :: s.drop (i + 3) :=
              (List.getElem_cons_drop s (i + 2) hlt).symm
            have hga : s.getD (i + 1) 0 = s[i + 1] := List.getD_eq_getElem s 0 h1
            have hgb : s.getD (i + 2) 0 = s[i + 2] := List.getD_eq_getElem s 0 hlt
            have hhex : (isHexDigit s[i + 1] && isHexDigit s[i + 2]) = false := by
              cases hx1 : isHexDigit s[i + 1] <;> cases hx2 : isHexDigit s[i + 2] <;> try rfl
              exfalso
              apply hcond
              rw [hgd, h61, hga, hgb, hx1, hx2]
              simp [hlt]
            rw [h61, hdrop1, hdrop2, qpSpecScan,
              if_neg (by rw [hhex]; exact Bool.false_ne_true), ← hdrop2, ← hdrop1]
          · have hlen : (s.drop (i + 1)).length ≤ 1 := by
              rw [List.length_drop]; omega
            rw [h61]
            rcases hdp : s.drop (i + 1) with _ | ⟨a, t⟩
            · rfl
            · rcases t with _ | ⟨b, t2⟩
              · rfl
              · rw [hdp] at hlen; simp at hlen
        · exact (qpSpecScan_cons_ne h61).symm
    · rw [List.drop_eq_nil_of_le (by omega)]
      simp only [qpScanAux]
      rw [if_neg hi]
      rfl

/-! ## Claim theorems -/

/-- C2: quoted-printable decoding first removes every soft line break
(`=` immediately followed by CRLF or LF), then scans left to right,
emitting for every `=` followed by exactly two hex digits the byte those
digits denote and for any other character its own code unit; `"A=3DB"`
decodes to `"A=B"`, `"A\x3d\r\nB"` decodes to `"AB"`, and a trailing
`=41` still emits byte 65. -/
theorem claim_C2_quoted_printable :
    (∀ s : JSStr, decodeQuotedPrintableBytes s = qpSpecScan (removeSoftBreaks s)) ∧
    decodeQuotedPrintable trivialDecoders (cus "A=3DB") (cus "utf-8") = cus "A=B" ∧
    decodeQuotedPrintable trivialDecoders (cus "A=\r\nB") (cus "utf-8") = cus "AB" ∧
    decodeQuotedPrintableBytes (cus "A=41") = cus "AA" := by
  refine ⟨fun s => ?_, by decide, by decide, by decide⟩
  have h := qpScanAux_eq_spec (removeSoftBreaks s) (removeSoftBreaks s).length.succ 0
    (by omega)
  simpa [decodeQuotedPrintableBytes] using h

/-- Witness for C2 at a concrete input. -/
theorem claim_C2_quoted_printable_witness :
    decodeQuotedPrintableBytes (cus "x=4") = qpSpecScan (removeSoftBreaks (cus "x=4")) :=
  claim_C2_quoted_printable.1 (cus "x=4")

/-- C5 counterexample: `'ISO_8859-1'` and `'iso88591'` differ only in
punctuation yet resolve to different decoders, because the normalization
`replace(/[^a-z0-9-]/g, "")` keeps hyphens: `'ISO_8859-1'` normalizes to
`iso8859-1`, which is not in the charset map, so it falls back to utf-8. -/
theorem claim_C5_counterexample :
    getTextDecoderName (cus "ISO_8859-1") = cus "utf-8" ∧
    getTextDecoderName (cus "iso88591") = cus "iso-8859-1" ∧
    cus "utf-8" ≠ cus "iso-8859-1" := by
  refine ⟨by decide, by decide, by decide⟩

/-- C5 (amended): the lookup lower-cases the label and strips every
character other than `a-z`, `0-9` and `-` (hyphens are kept), resolves
the normalized label in the recognized map (gb2312 mapping to gbk), and
resolves anything unrecognized — including `ISO_8859-1`, whose hyphen
survives normalization — to utf-8; every resolved decoder is one of
utf-8, gbk, gb18030, big5, iso-8859-1, windows-1252. -/
theorem claim_C5_charset_lookup :
    (∀ cs : JSStr, getTextDecoderName cs ∈
      [cus "utf-8", cus "gbk", cus "gb18030", cus "big5",
       cus "iso-8859-1", cus "windows-1252"]) ∧
    (getTextDecoderName (cus "utf-8") = cus "utf-8" ∧
     getTextDecoderName (cus "UTF8") = cus "utf-8" ∧
     getTextDecoderName (cus "gbk") = cus "gbk" ∧
     getTextDecoderName (cus "GB2312") = cus "gbk" ∧
     getTextDecoderName (cus "gb18030") = cus "gb18030" ∧
     getTextDecoderName (cus "Big5") = cus "big5" ∧
     getTextDecoderName (cus "iso-8859-1") = cus "iso-8859-1" ∧
     getTextDecoderName (cus "windows-1252") = cus "windows-1252" ∧
     getTextDecoderName (cus "ISO.8859.1") = cus "iso-8859-1" ∧
     getTextDecoderName (cus "ISO_8859-1") = cus "utf-8" ∧
     getTextDecoderName (cus "x-unknown") = cus "utf-8") := by
  constructor
  · intro cs
    unfold getTextDecoderName charsetMapLookup
    repeat' split
    all_goals decide
  · decide

/-- Witness for C5 at a concrete input. -/
theorem claim_C5_charset_lookup_witness :
    getTextDecoderName (cus "koi8-r") ∈
      [cus "utf-8", cus "gbk", cus "gb18030", cus "big5",
       cus "iso-8859-1", cus "windows-1252"] :=
  claim_C5_charset_lookup.1 (cus "koi8-r")

/-- C3: a top-level Content-Type containing `multipart` but carrying no
`boundary=` attribute parses to empty text, empty HTML, and no
attachments. -/
theorem claim_C3_missing_boundary (d : CJKDecoders) (bodyRaw ct te : JSStr)
    (hmp : containsSub (jsToLower ct) (cus "multipart") = true)
    (hnb : findParamAux (cus "boundary") ctParamClass ct = none) :
    parseBody d bodyRaw ct te = ⟨[], [], []⟩ := by
  simp only [parseBody, hmp, hnb, if_true]

/-- Witness for C3 at a concrete input. -/
theorem claim_C3_missing_boundary_witness :
    parseBody trivialDecoders (cus "some body") (cus "multipart/mixed") (cus "") =
      ⟨[], [], []⟩ :=
  claim_C3_missing_boundary trivialDecoders (cus "some body") (cus "multipart/mixed")
    (cus "") (by decide) (by decide)

/-- C1: a multipart part whose Content-Disposition contains `attachment`
and whose Content-Transfer-Encoding contains `base64` yields an
attachment whose `content` is exactly the base64-decoded byte sequence of
the part body (no charset text decoding) and whose `size` is the length
of that decoded byte sequence. -/
theorem claim_C1_base64_attachment (d : CJKDecoders) (st : BodyResult) (p : MimePart)
    (bs : List Nat)
    (hdisp : containsSub (jsToLower (hgetD p.headers (cus "content-disposition")))
      (cus "attachment") = true)
    (henc : containsSub (jsToLower (hgetD p.headers (cus "content-transfer-encoding")))
      (cus "base64") = true)
    (hdec : atobJs (stripJsWs p.body) = some bs) :
    processPart d st p = { st with
      attachments := st.attachments ++
        [{ filename := decodeMimeHeader d
             ((findParamAux (cus "filename") filenameClass
               (jsToLower (hgetD p.headers (cus "content-disposition")))).getD
               (cus "attachment")),
           contentType := trimJs (takeBeforeSemi
             (jsToLower (hgetD p.headers (cus "content-type")))),
           content := bs,
           size := bs.length }] } := by
  simp only [processPart, hdisp, henc, if_true, decodeBase64ToBinary, hdec]

/-- Witness for C1 at a concrete part (`QUJD` decodes to the three bytes
65 66 67; the size is 3, not the encoded length 4). -/
theorem claim_C1_base64_attachment_witness :
    processPart trivialDecoders ⟨[], [], []⟩
      ⟨[(cus "content-disposition", cus "attachment; filename=x.bin"),
        (cus "content-transfer-encoding", cus "base64")], cus "QUJD"⟩ =
      ⟨[], [],
       [{ filename := cus "x.bin", contentType := cus "",
          content := [65, 66, 67], size := 3 }]⟩ := by
  have h := claim_C1_base64_attachment trivialDecoders ⟨[], [], []⟩
    ⟨[(cus "content-disposition", cus "attachment; filename=x.bin"),
      (cus "content-transfer-encoding", cus "base64")], cus "QUJD"⟩
    [65, 66, 67] (by decide) (by decide) (by decide)
  rw [h]
  decide

/-! ### Lemmas about the encoded-word scanner -/

theorem takeWhile_notq_append (u v : JSStr) (h : ∀ c ∈ u, (c != 63) = true) :
    (u ++ 63 :: v).takeWhile (fun c => c != 63) = u := by
  induction u with
  | nil => simp [List.takeWhile_cons]
  | cons c u ih =>
    have hc := h c (List.mem_cons_self c u)
    simp only [List.cons_append, List.takeWhile_cons, hc, if_true]
    rw [ih (fun x hx => h x (List.mem_cons_of_mem c hx))]

theorem dropWhile_notq_append (u v : JSStr) (h : ∀ c ∈ u, (c != 63) = true) :
    (u ++ 63 :: v).dropWhile (fun c => c != 63) = 63 :: v := by
  induction u with
  | nil => simp [List.dropWhile_cons]
  | cons c u ih =>
    have hc := h c (List.mem_cons_self c u)
    simp only [List.cons_append, List.dropWhile_cons, hc, if_true]
    exact ih (fun x hx => h x (List.mem_cons_of_mem c hx))

theorem span_notq_append (u v : JSStr) (h : ∀ c ∈ u, (c != 63) = true) :
    (u ++ 63 :: v).span (fun c => c != 63) = (u, 63 :: v) := by
  rw [List.span_eq_take_drop, takeWhile_notq_append u v h, dropWhile_notq_append u v h]

theorem matchEncWord_token (cs txt r : JSStr) (h1 : cs ≠ [])
    (h2 : ∀ c ∈ cs, (c != 63) = true) (h3 : ∀ c ∈ txt, (c != 63) = true) :
    matchEncWord (61 :: 63 :: (cs ++ 63 :: 66 :: 63 :: (txt ++ 63 :: 61 :: r))) =
      some (cs, 66, txt, r) := by
  simp only [matchEncWord, span_notq_append cs (66 :: 63 :: (txt ++ 63 :: 61 :: r)) h2,
    span_notq_append txt (61 :: r) h3, h1, if_false]
  simp

theorem matchEncWord_len (l cs : JSStr) (e : Nat) (txt r : JSStr)
    (h : matchEncWord l = some (cs, e, txt, r)) : r.length + 2 ≤ l.length := by
  rw [matchEncWord.eq_def] at h
  split at h
  · rename_i rest
    rw [List.span_eq_take_drop] at h
    dsimp only at h
    split at h
    · exact absurd h (by simp)
    · split at h
      · rename_i e2 r2 heq
        split at h
        · rw [List.span_eq_take_drop] at h
          dsimp only at h
          split at h
          · rename_i r4 heq2
            have b1 : (rest.dropWhile (fun c => c != 63)).length ≤ rest.length :=
              (List.dropWhile_sublist _).length_le
            have b2 : (r2.dropWhile (fun c => c != 63)).length ≤ r2.length :=
              (List.dropWhile_sublist _).length_le
            rw [heq] at b1
            rw [heq2] at b2
            have hr : r4 = r := by
              simp only [Option.some.injEq, Prod.mk.injEq] at h
              exact h.2.2.2
            rw [hr] at b2
            simp only [List.length_cons] at b1 b2 ⊢
            omega
          · exact absurd h (by simp)
        · exact absurd h (by simp)
      · exact absurd h (by simp)
  · exact absurd h (by simp)

theorem mimeScanAux_fuel (d : CJKDecoders) :
    ∀ (n : Nat) (s : JSStr) (f1 f2 : Nat), s.length ≤ n → s.length < f1 → s.length < f2 →
      mimeScanAux d f1 s = mimeScanAux d f2 s := by
  intro n
  induction n with
  | zero =>
    intro s f1 f2 h h1 h2
    have hs : s = [] := List.eq_nil_of_length_eq_zero (by omega)
    subst hs
    rcases f1 with _ | f1
    · omega
    rcases f2 with _ | f2
    · omega
    rfl
  | succ n ih =>
    intro s f1 f2 h h1 h2
    rcases f1 with _ | f1
    · omega
    rcases f2 with _ | f2
    · omega
    cases s with
    | nil => rfl
    | cons c rest =>
      simp only [mimeScanAux]
      cases hm : matchEncWord (c :: rest) with
      | none =>
        dsimp only
        have hlen : rest.length ≤ n := by simp only [List.length_cons] at h; omega
        rw [ih rest f1 f2 hlen (by simp only [List.length_cons] at h1; omega)
          (by simp only [List.length_cons] at h2; omega)]
      | some t =>
        obtain ⟨cs, e, txt, r⟩ := t
        dsimp only
        have hb := matchEncWord_len (c :: rest) cs e txt r hm
        simp only [List.length_cons] at hb h h1 h2
        rw [ih r f1 f2 (by omega) (by omega) (by omega)]

theorem mimeScanAux_step (d : CJKDecoders) (fuel : Nat) (s cs : JSStr) (e : Nat)
    (txt r : JSStr) (hm : matchEncWord s = some (cs, e, txt, r)) (hs : s ≠ []) :
    mimeScanAux d (fuel + 1) s = encWordDecode d cs e txt ++ mimeScanAux d fuel r := by
  cases s with
  | nil => exact absurd rfl hs
  | cons c rest =>
    simp only [mimeScanAux, hm]

/-- C4 counterexample: for the header value `=?utf-8?B?!!!?=` (whose text
is not valid base64) the decoded value is the bare inner text `!!!` — the
`=?utf-8?B?` prefix and `?=` suffix are stripped, so the token's original
literal text does not appear unchanged in the result. -/
theorem claim_C4_counterexample :
    decodeMimeHeader trivialDecoders (cus "=?utf-8?B?!!!?=") = cus "!!!" ∧
    containsSub (cus "!!!") (cus "=?utf-8?B?!!!?=") = false := by
  refine ⟨by decide, by decide⟩

/-- C4 (amended): when a `B` token's text is not valid base64, the token
is replaced by its inner text alone — the `=?charset?B?` prefix and `?=`
suffix are stripped (the `catch` of `decodeBase64` returns its `str`
argument, which is the text capture, not the whole match) — and the rest
of the header value is still decoded independently. -/
theorem claim_C4_failed_token (d : CJKDecoders) (cs txt rest : JSStr)
    (h1 : cs ≠ []) (h2 : ∀ c ∈ cs, (c != 63) = true) (h3 : ∀ c ∈ txt, (c != 63) = true)
    (h4 : atobJs (stripJsWs txt) = none) :
    decodeMimeHeader d (cus "=?" ++ cs ++ cus "?B?" ++ txt ++ cus "?=" ++ rest) =
      txt ++ decodeMimeHeader d rest := by
  have e1 : cus "=?" = [61, 63] := rfl
  have e2 : cus "?B?" = [63, 66, 63] := rfl
  have e3 : cus "?=" = [63, 61] := rfl
  have hshape : cus "=?" ++ cs ++ cus "?B?" ++ txt ++ cus "?=" ++ rest =
      61 :: 63 :: (cs ++ 63 :: 66 :: 63 :: (txt ++ 63 :: 61 :: rest)) := by
    rw [e1, e2, e3]
    simp [List.append_assoc]
  rw [hshape]
  simp only [decodeMimeHeader]
  rw [mimeScanAux_step d _ _ cs 66 txt rest (matchEncWord_token cs txt rest h1 h2 h3)
    (by simp)]
  have henc : encWordDecode d cs 66 txt = txt := by
    simp [encWordDecode, decodeBase64, h4]
  rw [henc]
  congr 1
  have hlen : (61 :: 63 :: (cs ++ 63 :: 66 :: 63 :: (txt ++ 63 :: 61 :: rest))).length =
      cs.length + txt.length + rest.length + 7 := by
    simp [List.length_append]
    omega
  apply mimeScanAux_fuel d rest.length rest
  · omega
  · omega
  · omega

/-- Witness for C4 at a concrete input: the failing token collapses to its
inner text while the following token still decodes. -/
theorem claim_C4_failed_token_witness :
    decodeMimeHeader trivialDecoders
      (cus "=?" ++ cus "utf-8" ++ cus "?B?" ++ cus "!!!" ++ cus "?=" ++
        cus " =?utf-8?B?QQ==?=") =
      cus "!!!" ++ decodeMimeHeader trivialDecoders (cus " =?utf-8?B?QQ==?=") :=
  claim_C4_failed_token trivialDecoders (cus "utf-8") (cus "!!!")
    (cus " =?utf-8?B?QQ==?=") (by decide) (by decide) (by decide) (by decide)

/-! ### Lemmas for header parsing -/

theorem asciiLower_idem (c : Nat) : asciiLower (asciiLower c) = asciiLower c := by
  unfold asciiLower
  split
  · rename_i h
    rw [if_neg (by omega)]
  · rfl

theorem jsToLower_idem (s : JSStr) : jsToLower (jsToLower s) = jsToLower s := by
  unfold jsToLower
  rw [List.map_map]
  exact List.map_congr_left (fun c _ => asciiLower_idem c)

theorem hset_keys_lower {hs : Headers} {k v : JSStr}
    (hh : ∀ q ∈ hs, jsToLower q.1 = q.1) (hk : jsToLower k = k) :
    ∀ q ∈ hset hs k v, jsToLower q.1 = q.1 := by
  unfold hset
  split
  · intro q hq
    rw [List.mem_map] at hq
    obtain ⟨p, hp, hpe⟩ := hq
    by_cases hc : (p.1 == k) = true
    · rw [if_pos hc] at hpe
      rw [← hpe]
      exact hk
    · rw [if_neg hc] at hpe
      rw [← hpe]
      exact hh p hp
  · intro q hq
    rw [List.mem_append] at hq
    rcases hq with hq | hq
    · exact hh q hq
    · rw [List.mem_singleton] at hq
      rw [hq]
      exact hk

theorem phFlush_keys_lower {d : CJKDecoders} {st : PHState}
    (hh : ∀ q ∈ st.hs, jsToLower q.1 = q.1) :
    ∀ q ∈ phFlush d st, jsToLower q.1 = q.1 := by
  unfold phFlush
  split
  · exact hset_keys_lower hh (jsToLower_idem st.curKey)
  · exact hh

theorem phLine_keys_lower {d : CJKDecoders} {st : PHState} {line : JSStr}
    (hh : ∀ q ∈ st.hs, jsToLower q.1 = q.1) :
    ∀ q ∈ (phLine d st line).hs, jsToLower q.1 = q.1 := by
  unfold phLine
  split
  · exact hh
  · split
    · split
      · exact phFlush_keys_lower hh
      · exact phFlush_keys_lower hh
    · exact phFlush_keys_lower hh

theorem phFold_keys_lower (d : CJKDecoders) :
    ∀ (lines : List JSStr) (st : PHState), (∀ q ∈ st.hs, jsToLower q.1 = q.1) →
      ∀ q ∈ (lines.foldl (phLine d) st).hs, jsToLower q.1 = q.1 := by
  intro lines
  induction lines with
  | nil => intro st hh; exact hh
  | cons l ls ih =>
    intro st hh
    rw [List.foldl_cons]
    exact ih (phLine d st l) (phLine_keys_lower hh)

theorem splitLines_no_break (u : JSStr) (h : ∀ c ∈ u, c ≠ 13 ∧ c ≠ 10) :
    splitLines u = [u] := by
  induction u with
  | nil => rfl
  | cons c u ih =>
    have hc := h c (List.mem_cons_self c u)
    rw [splitLines.eq_def]
    split
    · rename_i heq
      exact absurd heq (List.cons_ne_nil c u)
    · rename_i rest heq
      injection heq with hc13
      exact absurd hc13 hc.1
    · rename_i rest heq
      injection heq with hc10
      exact absurd hc10 hc.2
    · rename_i c2 rest _ _ heq
      injection heq with he1 he2
      rw [← he1, ← he2, ih (fun x hx => h x (List.mem_cons_of_mem c hx))]

theorem splitLines_append_crlf (u w : JSStr) (h : ∀ c ∈ u, c ≠ 13 ∧ c ≠ 10) :
    splitLines (u ++ 13 :: 10 :: w) = u :: splitLines w := by
  induction u with
  | nil => rfl
  | cons c u ih =>
    have hc := h c (List.mem_cons_self c u)
    rw [List.cons_append, splitLines.eq_def]
    split
    · rename_i heq
      exact absurd heq (List.cons_ne_nil c (u ++ 13 :: 10 :: w))
    · rename_i rest heq
      injection heq with hc13
      exact absurd hc13 hc.1
    · rename_i rest heq
      injection heq with hc10
      exact absurd hc10 hc.2
    · rename_i c2 rest _ _ heq
      injection heq with he1 he2
      rw [← he1, ← he2, ih (fun x hx => h x (List.mem_cons_of_mem c hx))]

theorem trimJs_cons_space (v : JSStr) : trimJs (32 :: v) = trimJs v := by
  have h32 : jsWhitespace 32 = true := rfl
  simp only [trimJs, List.dropWhile_cons, h32, if_true]

theorem trimJs_single (k : Nat) (h : jsWhitespace k = false) : trimJs [k] = [k] := by
  simp [trimJs, List.dropWhile_cons, h]

theorem hset_nil (k v : JSStr) : hset [] k v = [(k, v)] := by
  simp [hset]

theorem hset_single_same (k v1 v2 : JSStr) : hset [(k, v1)] k v2 = [(k, v2)] := by
  simp [hset]

/-- A line `k ':' ' ' v` with a non-whitespace, non-colon first character
stores the pending header and starts accumulating key `[k]`, value
`trimJs v`. -/
theorem phLine_header (d : CJKDecoders) (st : PHState) (k : Nat) (v : JSStr)
    (hk : jsWhitespace k = false) (hkc : k ≠ 58) :
    phLine d st (k :: 58 :: 32 :: v) = ⟨[k], trimJs v, phFlush d st⟩ := by
  have hbe : (58 == k) = false := beq_eq_false_iff_ne.mpr (Ne.symm hkc)
  unfold phLine
  split
  · rename_i hcond
    have hcond2 : jsWhitespace k = true := hcond
    rw [hk] at hcond2
    exact absurd hcond2 (by simp)
  · have hidx : indexOfSub (k :: 58 :: 32 :: v) [58] = some 1 := by
      simp [indexOfSub, hasPre, hbe]
    rw [hidx]
    dsimp only
    rw [if_pos (by omega)]
    have ht1 : (k :: 58 :: 32 :: v).take 1 = [k] := rfl
    have ht2 : (k :: 58 :: 32 :: v).drop (1 + 1) = 32 :: v := rfl
    rw [ht1, ht2, trimJs_single k hk, trimJs_cons_space]

/-- C6: header keys are stored lower-cased; a folded continuation line is
joined to the previous value with a single space (`"Subject: Hello\r\n
World"` parses to `subject ↦ Hello World`); and a repeated header name
keeps only the last occurrence's value. -/
theorem claim_C6_headers :
    (∀ (d : CJKDecoders) (raw : JSStr), ∀ q ∈ parseHeaders d raw, jsToLower q.1 = q.1) ∧
    parseHeaders trivialDecoders (cus "Subject: Hello\r\n World") =
      [(cus "subject", cus "Hello World")] ∧
    (∀ (d : CJKDecoders) (v1 v2 : JSStr),
      (∀ c ∈ v1, c ≠ 13 ∧ c ≠ 10) → (∀ c ∈ v2, c ≠ 13 ∧ c ≠ 10) →
      parseHeaders d (cus "X: " ++ v1 ++ cus "\r\n" ++ cus "X: " ++ v2) =
        [(cus "x", decodeMimeHeader d (trimJs v2))]) := by
  refine ⟨?_, by decide, ?_⟩
  · intro d raw q hq
    exact phFlush_keys_lower
      (phFold_keys_lower d (splitLines raw) ⟨[], [], []⟩
        (fun q hq => absurd hq (List.not_mem_nil q))) q hq
  · intro d v1 v2 h1 h2
    have e1 : cus "X: " = [88, 58, 32] := rfl
    have e2 : cus "\r\n" = [13, 10] := rfl
    have e0 : cus "x" = [120] := rfl
    rw [e1, e2, e0]
    have hsh : ((([88, 58, 32] ++ v1) ++ [13, 10]) ++ [88, 58, 32]) ++ v2 =
        ([88, 58, 32] ++ v1) ++ 13 :: 10 :: ([88, 58, 32] ++ v2) := by
      simp [List.append_assoc]
    rw [hsh]
    have hu1 : ∀ c ∈ ([88, 58, 32] : JSStr) ++ v1, c ≠ 13 ∧ c ≠ 10 := by
      intro c hc
      rcases List.mem_append.mp hc with hc | hc
      · simp at hc
        rcases hc with h | h | h <;> constructor <;> omega
      · exact h1 c hc
    have hu2 : ∀ c ∈ ([88, 58, 32] : JSStr) ++ v2, c ≠ 13 ∧ c ≠ 10 := by
      intro c hc
      rcases List.mem_append.mp hc with hc | hc
      · simp at hc
        rcases hc with h | h | h <;> constructor <;> omega
      · exact h2 c hc
    unfold parseHeaders
    rw [splitLines_append_crlf _ _ hu1, splitLines_no_break _ hu2]
    rw [List.foldl_cons, List.foldl_cons, List.foldl_nil]
    have hc1 : ([88, 58, 32] : JSStr) ++ v1 = 88 :: 58 :: 32 :: v1 := rfl
    have hc2 : ([88, 58, 32] : JSStr) ++ v2 = 88 :: 58 :: 32 :: v2 := rfl
    rw [hc1, hc2, phLine_header d _ 88 v1 rfl (by omega),
      phLine_header d _ 88 v2 rfl (by omega)]
    have hf1 : phFlush d ⟨[], [], []⟩ = [] := rfl
    rw [hf1]
    have hf2 : phFlush d ⟨[88], trimJs v1, []⟩ =
        [([120], decodeMimeHeader d (trimJs v1))] := by
      unfold phFlush
      rw [if_pos (by simp)]
      exact hset_nil [120] _
    rw [hf2]
    unfold phFlush
    rw [if_pos (by simp)]
    exact hset_single_same [120] _ _

/-! ### Lemmas for the header/body split and multipart splitting -/

theorem hasPre_append_self (p s : JSStr) : hasPre p (p ++ s) = true := by
  induction p with
  | nil => rfl
  | cons c p ih => simp [hasPre, ih]

theorem hasPre_iff_take (p : JSStr) : ∀ l : JSStr, hasPre p l = true ↔ l.take p.length = p := by
  induction p with
  | nil => intro l; simp [hasPre]
  | cons a p ih =>
    intro l
    cases l with
    | nil => simp [hasPre]
    | cons c t =>
      simp only [hasPre, List.length_cons, List.take_succ_cons, Bool.and_eq_true,
        beq_iff_eq, List.cons.injEq, ih t]
      constructor
      · rintro ⟨h1, h2⟩
        exact ⟨h1.symm, h2⟩
      · rintro ⟨h1, h2⟩
        exact ⟨h1.symm, h2⟩

theorem containsSub_of_hasPre {l p : JSStr} (h : hasPre p l = true) :
    containsSub l p = true := by
  cases l with
  | nil =>
    cases p with
    | nil => rfl
    | cons a q => exact absurd h (by simp [hasPre])
  | cons c t =>
    simp only [containsSub, indexOfSub, h, if_true, Option.isSome_some]

theorem containsSub_cons (c : Nat) (t p : JSStr) (h : containsSub t p = true) :
    containsSub (c :: t) p = true := by
  simp only [containsSub, indexOfSub]
  split
  · rfl
  · simp only [containsSub] at h
    cases hopt : indexOfSub t p with
    | none => rw [hopt] at h; exact absurd h (by simp)
    | some i => rfl

theorem take4_agree (x : Nat) (h2 b : JSStr) :
    ((x :: h2) ++ [13, 10, 13]).take 4 = (x :: (h2 ++ 13 :: 10 :: 13 :: 10 :: b)).take 4 := by
  have key : ∀ m, m ≤ 3 → List.take m ([13, 10, 13] : JSStr) =
      List.take m (13 :: 10 :: 13 :: 10 :: b) := by
    intro m hm
    interval_cases m <;> rfl
  simp only [List.cons_append, List.take_succ_cons, List.take_append_eq_append_take]
  rw [key (3 - h2.length) (by omega)]

theorem indexOfSub_boundary : ∀ (hs b : JSStr),
    containsSub (hs ++ [13, 10, 13]) [13, 10, 13, 10] = false →
    indexOfSub (hs ++ 13 :: 10 :: 13 :: 10 :: b) [13, 10, 13, 10] = some hs.length := by
  intro hs
  induction hs with
  | nil =>
    intro b _
    have h : hasPre [13, 10, 13, 10] (13 :: 10 :: 13 :: 10 :: b) = true :=
      hasPre_append_self [13, 10, 13, 10] b
    simp [indexOfSub, h]
  | cons c h2 ih =>
    intro b hno
    rw [List.cons_append]
    simp only [indexOfSub]
    have hfalse : hasPre [13, 10, 13, 10] (c :: (h2 ++ 13 :: 10 :: 13 :: 10 :: b)) = false := by
      by_contra hcon
      rw [Bool.not_eq_false] at hcon
      have htake := (hasPre_iff_take [13, 10, 13, 10] _).mp hcon
      have htake2 : ((c :: h2) ++ [13, 10, 13]).take 4 = [13, 10, 13, 10] := by
        rw [take4_agree c h2 b]
        exact htake
      have hcont : containsSub ((c :: h2) ++ [13, 10, 13]) [13, 10, 13, 10] = true :=
        containsSub_of_hasPre ((hasPre_iff_take [13, 10, 13, 10] _).mpr htake2)
      rw [hno] at hcont
      exact absurd hcont (by simp)
    rw [hfalse]
    have hno2 : containsSub (h2 ++ [13, 10, 13]) [13, 10, 13, 10] = false := by
      by_contra hcon
      rw [Bool.not_eq_false] at hcon
      have : containsSub ((c :: h2) ++ [13, 10, 13]) [13, 10, 13, 10] = true := by
        rw [List.cons_append]
        exact containsSub_cons c _ _ hcon
      rw [hno] at this
      exact absurd this (by simp)
    rw [if_neg (by simp), ih b hno2]
    simp

/-- C7 counterexample: the LF-only message `"A: B\n\nhello"` contains a
blank line, yet the parser does not split it — the whole message becomes
the header block and the body is empty, because the split searches only
for CRLFCRLF. -/
theorem claim_C7_counterexample :
    splitHeadBody (cus "A: B\n\nhello") = (cus "A: B\n\nhello", ([] : JSStr)) ∧
    (cus "A: B\n\nhello", ([] : JSStr)) ≠ (cus "A: B", cus "hello") := by
  refine ⟨by decide, by decide⟩

/-- C7 (amended): the parser splits at the first occurrence of CRLFCRLF
when that occurrence is at a positive index (first conjunct, with the
hypothesis ruling out an earlier occurrence, including one straddling the
boundary); when CRLFCRLF does not occur at all the whole message is the
header block with an empty body (second conjunct); the framing split is
CRLF-only, so an LF-only message with a blank line does not split (third
conjunct); and when the first occurrence is at index 0 — the message
starts with CRLFCRLF — the `headerEndIndex > 0` guard also leaves the
whole message as the header block with an empty body (fourth
conjunct). -/
theorem claim_C7_head_body_split :
    (∀ (hs b : JSStr), hs ≠ [] →
      containsSub (hs ++ [13, 10, 13]) [13, 10, 13, 10] = false →
      splitHeadBody (hs ++ cus "\r\n\r\n" ++ b) = (hs, b)) ∧
    (∀ raw : JSStr, containsSub raw (cus "\r\n\r\n") = false →
      splitHeadBody raw = (raw, [])) ∧
    splitHeadBody (cus "A: B\n\nhello") = (cus "A: B\n\nhello", ([] : JSStr)) ∧
    (∀ b : JSStr, splitHeadBody (cus "\r\n\r\n" ++ b) = (cus "\r\n\r\n" ++ b, [])) := by
  have e : cus "\r\n\r\n" = [13, 10, 13, 10] := rfl
  refine ⟨?_, ?_, by decide, ?_⟩
  · intro hs b hne hno
    have hsh : hs ++ cus "\r\n\r\n" ++ b = hs ++ 13 :: 10 :: 13 :: 10 :: b := by
      rw [e]
      simp
    unfold splitHeadBody
    rw [hsh, e, indexOfSub_boundary hs b hno]
    have hpos : 0 < hs.length := List.length_pos.mpr hne
    dsimp only
    rw [if_pos hpos]
    have htake : (hs ++ 13 :: 10 :: 13 :: 10 :: b).take hs.length = hs := by
      rw [List.take_append_eq_append_take, List.take_length, Nat.sub_self,
        List.take_zero, List.append_nil]
    have hdrop : (hs ++ 13 :: 10 :: 13 :: 10 :: b).drop (hs.length + 4) = b := by
      have h4 : hs.length + 4 = hs.length + 4 := rfl
      rw [show hs ++ 13 :: 10 :: 13 :: 10 :: b = (hs ++ [13, 10, 13, 10]) ++ b by simp,
        show hs.length + 4 = (hs ++ [13, 10, 13, 10]).length by simp,
        List.drop_left]
    rw [htake, hdrop]
  · intro raw hno
    unfold splitHeadBody
    have : indexOfSub raw (cus "\r\n\r\n") = none := by
      rcases hopt : indexOfSub raw (cus "\r\n\r\n") with _ | i
      · rfl
      · exfalso
        have : containsSub raw (cus "\r\n\r\n") = true := by
          simp [containsSub, hopt]
        rw [hno] at this
        exact absurd this (by simp)
    rw [this]
  · intro b
    have hsh : cus "\r\n\r\n" ++ b = 13 :: 10 :: 13 :: 10 :: b := by
      rw [e]
      simp
    have hpre : hasPre [13, 10, 13, 10] (13 :: 10 :: 13 :: 10 :: b) = true :=
      hasPre_append_self [13, 10, 13, 10] b
    have hidx : indexOfSub (13 :: 10 :: 13 :: 10 :: b) [13, 10, 13, 10] = some 0 := by
      simp [indexOfSub, hpre]
    unfold splitHeadBody
    rw [hsh, e, hidx]
    dsimp only
    rw [if_neg (by omega)]

/-- Witness for C7 at a concrete input. -/
theorem claim_C7_head_body_split_witness :
    splitHeadBody (cus "A: B" ++ cus "\r\n\r\n" ++ cus "hello") = (cus "A: B", cus "hello") :=
  claim_C7_head_body_split.1 (cus "A: B") (cus "hello") (by decide) (by decide)

/-- Witness for C6 at a concrete input. -/
theorem claim_C6_headers_witness :
    parseHeaders trivialDecoders (cus "X: " ++ cus "a" ++ cus "\r\n" ++ cus "X: " ++ cus "b") =
      [(cus "x", decodeMimeHeader trivialDecoders (trimJs (cus "b")))] :=
  claim_C6_headers.2.2 trivialDecoders (cus "a") (cus "b") (by decide) (by decide)

theorem hasPre_length_le {p l : JSStr} (h : hasPre p l = true) : p.length ≤ l.length := by
  have ht := congrArg List.length ((hasPre_iff_take p l).mp h)
  rw [List.length_take] at ht
  omega

theorem indexOfSub_le {p : JSStr} : ∀ {l : JSStr} {i : Nat},
    indexOfSub l p = some i → i + p.length ≤ l.length := by
  intro l
  induction l with
  | nil =>
    intro i h
    unfold indexOfSub at h
    split at h
    · rename_i hp
      injection h with h0
      rw [hp, ← h0]
      simp
    · exact absurd h (by simp)
  | cons c t ih =>
    intro i h
    unfold indexOfSub at h
    split at h
    · rename_i hpre
      injection h with h0
      rw [← h0]
      simpa using hasPre_length_le hpre
    · cases hopt : indexOfSub t p with
      | none => rw [hopt] at h; exact absurd h (by simp)
      | some j =>
        rw [hopt] at h
        simp only [Option.map_some'] at h
        injection h with h0
        have := ih hopt
        simp only [List.length_cons]
        omega

theorem splitSubAux_fuel (pat : JSStr) (hp : pat ≠ []) :
    ∀ (n : Nat) (s : JSStr) (f1 f2 : Nat), s.length ≤ n → s.length < f1 → s.length < f2 →
      splitSubAux pat f1 s = splitSubAux pat f2 s := by
  intro n
  induction n with
  | zero =>
    intro s f1 f2 h h1 h2
    have hs : s = [] := List.eq_nil_of_length_eq_zero (by omega)
    subst hs
    rcases f1 with _ | f1
    · omega
    rcases f2 with _ | f2
    · omega
    have hnone : indexOfSub [] pat = none := by
      unfold indexOfSub
      rw [if_neg hp]
    simp only [splitSubAux, hnone]
  | succ n ih =>
    intro s f1 f2 h h1 h2
    rcases f1 with _ | f1
    · omega
    rcases f2 with _ | f2
    · omega
    cases hopt : indexOfSub s pat with
    | none => simp only [splitSubAux, hopt]
    | some i =>
      simp only [splitSubAux, hopt]
      have hle := indexOfSub_le hopt
      have hpl : 1 ≤ pat.length := List.length_pos.mpr hp
      have hdl : (s.drop (i + pat.length)).length = s.length - (i + pat.length) :=
        List.length_drop _ _
      rw [ih (s.drop (i + pat.length)) f1 f2 (by omega) (by omega) (by omega)]

theorem splitSub_step (s pat : JSStr) (i : Nat) (hp : pat ≠ [])
    (hi : indexOfSub s pat = some i) :
    splitSub s pat = s.take i :: splitSub (s.drop (i + pat.length)) pat := by
  unfold splitSub
  rw [if_neg hp, if_neg hp]
  simp only [splitSubAux, hi]
  congr 1
  have hle := indexOfSub_le hi
  have hpl : 1 ≤ pat.length := List.length_pos.mpr hp
  have hdl : (s.drop (i + pat.length)).length = s.length - (i + pat.length) :=
    List.length_drop _ _
  exact splitSubAux_fuel pat hp (s.drop (i + pat.length)).length (s.drop (i + pat.length))
    s.length ((s.drop (i + pat.length)).length + 1) (by omega) (by omega) (by omega)

/-- C10: `parseMultipart` splits the body at every occurrence of
`"--" + boundary` anywhere in the text — the splitting step fires at the
first occurrence wherever it lies, with no requirement that it begin a
line (first conjunct) — so a part whose own content contains the
delimiter mid-line is cut there: in the concrete message the first part's
body is truncated to `line1` at the mid-line `--xyz` and the remainder
becomes a second part (second conjunct). -/
theorem claim_C10_split_anywhere :
    (∀ (s pat : JSStr) (i : Nat), pat ≠ [] → indexOfSub s pat = some i →
      splitSub s pat = s.take i :: splitSub (s.drop (i + pat.length)) pat) ∧
    parseMultipart trivialDecoders
      (cus "--xyz\r\nH: v\r\n\r\nline1 --xyz\r\nH2: v2\r\n\r\nbody2\r\n--xyz--")
      (cus "xyz") =
      [⟨[(cus "h", cus "v")], cus "line1"⟩, ⟨[(cus "h2", cus "v2")], cus "body2"⟩] := by
  refine ⟨fun s pat i hp hi => splitSub_step s pat i hp hi, by decide⟩

/-- Witness for C10 at a concrete input (the delimiter occurrence is
mid-line, preceded by `a`, and still splits). -/
theorem claim_C10_split_anywhere_witness :
    splitSub (cus "a--xb") (cus "--x") =
      (cus "a--xb").take 1 :: splitSub ((cus "a--xb").drop 4) (cus "--x") :=
  claim_C10_split_anywhere.1 (cus "a--xb") (cus "--x") 1 (by decide) (by decide)

/-! ### Lemmas for `htmlToText` -/

/-- Does the string contain two adjacent spaces? -/
def hasDbl32 : JSStr → Bool
  | a :: b :: rest => (a == 32 && b == 32) || hasDbl32 (b :: rest)
  | _ => false

theorem dedupe32_head : ∀ (rest : JSStr) (b : Nat), ∃ t, dedupe32 (b :: rest) = b :: t := by
  intro rest
  induction rest with
  | nil => intro b; exact ⟨[], rfl⟩
  | cons c r ih =>
    intro b
    by_cases hb : (b == 32 && c == 32) = true
    · obtain ⟨t, ht⟩ := ih c
      have hb2 : b = 32 ∧ c = 32 := by
        simp only [Bool.and_eq_true, beq_iff_eq] at hb
        exact hb
      refine ⟨t, ?_⟩
      rw [show dedupe32 (b :: c :: r) = dedupe32 (c :: r) by
        simp only [dedupe32]; rw [if_pos hb], ht, hb2.1, hb2.2]
    · exact ⟨dedupe32 (c :: r), by simp only [dedupe32]; rw [if_neg hb]⟩

theorem hasDbl32_dedupe : ∀ s : JSStr, hasDbl32 (dedupe32 s) = false := by
  intro s
  induction s with
  | nil => rfl
  | cons a s ih =>
    cases s with
    | nil => rfl
    | cons b r =>
      by_cases hab : (a == 32 && b == 32) = true
      · rw [show dedupe32 (a :: b :: r) = dedupe32 (b :: r) by
          simp only [dedupe32]; rw [if_pos hab]]
        exact ih
      · rw [show dedupe32 (a :: b :: r) = a :: dedupe32 (b :: r) by
          simp only [dedupe32]; rw [if_neg hab]]
        rw [Bool.not_eq_true] at hab
        obtain ⟨t, ht⟩ := dedupe32_head r b
        rw [ht]
        simp only [hasDbl32, hab, Bool.false_or]
        rw [← ht]
        exact ih

theorem dedupe32_subset : ∀ s : JSStr, dedupe32 s ⊆ s := by
  intro s
  induction s with
  | nil => exact fun c hc => hc
  | cons a s ih =>
    cases s with
    | nil => exact fun c hc => hc
    | cons b r =>
      by_cases hab : (a == 32 && b == 32) = true
      · rw [show dedupe32 (a :: b :: r) = dedupe32 (b :: r) by
          simp only [dedupe32]; rw [if_pos hab]]
        exact fun c hc => List.mem_cons_of_mem a (ih hc)
      · rw [show dedupe32 (a :: b :: r) = a :: dedupe32 (b :: r) by
          simp only [dedupe32]; rw [if_neg hab]]
        intro c hc
        rcases List.mem_cons.mp hc with hc | hc
        · rw [hc]; exact List.mem_cons_self a _
        · exact List.mem_cons_of_mem a (ih hc)

/-- C8 counterexample: `&amp;lt;` is unescaped to `<`, not to the literal
`&lt;` — the `&lt;` substitution runs after the `&amp;` substitution, so
the `&`-introduced entity is re-interpreted. -/
theorem claim_C8_counterexample :
    htmlToText (cus "&amp;lt;") = cus "<" ∧ cus "<" ≠ cus "&lt;" := by
  refine ⟨by decide, by decide⟩

/-- C8 (amended): `htmlToText` removes style and script blocks, strips
remaining tags to a single space, unescapes the five entities in the pass
order `&nbsp;` `&amp;` `&lt;` `&gt;` `&quot;`, so that an entity whose
pass runs after the `&amp;` pass IS re-interpreted (`&amp;lt;` yields
`<`) while `&amp;nbsp;` survives as `&nbsp;` (its pass already ran);
it collapses whitespace runs to one space (general: the result of
`collapseWs` has no two adjacent spaces and no whitespace other than a
space) and trims; `<p>Hi <b>there</b></p>` produces `Hi there`. -/
theorem claim_C8_html_to_text :
    htmlToText (cus "<p>Hi <b>there</b></p>") = cus "Hi there" ∧
    htmlToText (cus "<style>x p \x7b\x7d</style>a<script>var y=1;</script>b") = cus "ab" ∧
    htmlToText (cus "&amp;nbsp;") = cus "&nbsp;" ∧
    htmlToText (cus "&amp;lt;") = cus "<" ∧
    htmlToText (cus "&gt;&quot;") = cus ">\"" ∧
    htmlToText (cus " a \t\n b  ") = cus "a b" ∧
    (∀ s : JSStr, hasDbl32 (collapseWs s) = false) ∧
    (∀ (s : JSStr) (c : Nat), c ∈ collapseWs s → jsWhitespace c = true → c = 32) := by
  refine ⟨by decide, by decide, by decide, by decide, by decide, by decide,
    fun s => hasDbl32_dedupe _, ?_⟩
  intro s c hc hws
  have hmem := dedupe32_subset _ hc
  rw [List.mem_map] at hmem
  obtain ⟨x, _, hx⟩ := hmem
  by_cases hxw : jsWhitespace x = true
  · rw [← hx, if_pos hxw]
  · rw [← hx, if_neg hxw] at hws ⊢
    exact absurd hws hxw

/-- Witness for C8 at a concrete input. -/
theorem claim_C8_html_to_text_witness :
    hasDbl32 (collapseWs (cus "a  b")) = false :=
  claim_C8_html_to_text.2.2.2.2.2.2.1 (cus "a  b")

/-! ### Lemmas for filename extraction -/

theorem paramCapture_subset {cls : Nat → Bool} {s cap : JSStr}
    (h : paramCapture cls s = some cap) : ∀ c ∈ cap, c ∈ s := by
  unfold paramCapture at h
  split at h
  · exact absurd h (by simp)
  · rename_i x rest
    split at h
    · dsimp only at h
      split at h
      · exact absurd h (by simp)
      · injection h with h0
        intro c hc
        rw [← h0] at hc
        exact List.mem_cons_of_mem x ((List.takeWhile_sublist _).subset hc)
    · dsimp only at h
      split at h
      · exact absurd h (by simp)
      · injection h with h0
        intro c hc
        rw [← h0] at hc
        exact (List.takeWhile_sublist _).subset hc

theorem findParamAux_subset (attr : JSStr) (cls : Nat → Bool) :
    ∀ (s cap : JSStr), findParamAux attr cls s = some cap → ∀ c ∈ cap, c ∈ s := by
  intro s
  induction s with
  | nil =>
    intro cap h
    exact absurd h (by simp [findParamAux])
  | cons x rest ih =>
    intro cap h c hc
    unfold findParamAux at h
    split at h
    · split at h
      · rename_i cap2 hpc
        injection h with h0
        rw [← h0] at hc
        exact (List.drop_subset _ _) (paramCapture_subset hpc c hc)
      · exact List.mem_cons_of_mem x (ih cap h c hc)
    · exact List.mem_cons_of_mem x (ih cap h c hc)

theorem jsToLower_no_upper (s : JSStr) : ∀ c ∈ jsToLower s, ¬(65 ≤ c ∧ c ≤ 90) := by
  intro c hc
  rw [jsToLower, List.mem_map] at hc
  obtain ⟨x, _, hx⟩ := hc
  rw [← hx]
  unfold asciiLower
  split <;> omega

/-- C9 counterexample: an attachment whose (lower-cased) disposition
carries `filename="=?utf-8?q?=41?="` stores the filename `A` — the
encoded word survives lower-casing and its quoted-printable payload
`=41` decodes to the uppercase letter `A`, so a parsed attachment
filename can contain uppercase letters. -/
theorem claim_C9_counterexample :
    (processPart trivialDecoders ⟨[], [], []⟩
      ⟨[(cus "content-disposition",
         cus "attachment; filename=\"=?utf-8?q?=41?=\"")], cus "hi"⟩).attachments.map
        Attachment.filename = [cus "A"] ∧
    (cus "A").any (fun c => Nat.ble 65 c && Nat.ble c 90) = true := by
  refine ⟨by decide, by decide⟩

/-- C9 (amended): the `filename=` attribute is captured from the
lower-cased Content-Disposition value, so the captured literal contains
no uppercase ASCII letter (second conjunct); but the stored filename is
the MIME-word decode of that capture (first conjunct), and decoding an
embedded encoded word can reintroduce uppercase characters, so the
resulting filename is not guaranteed lower-case. -/
theorem claim_C9_filename_from_lowercased (d : CJKDecoders) (st : BodyResult)
    (p : MimePart)
    (hdisp : containsSub (jsToLower (hgetD p.headers (cus "content-disposition")))
      (cus "attachment") = true) :
    (processPart d st p).attachments.map Attachment.filename =
      st.attachments.map Attachment.filename ++
        [decodeMimeHeader d ((findParamAux (cus "filename") filenameClass
          (jsToLower (hgetD p.headers (cus "content-disposition")))).getD
          (cus "attachment"))] ∧
    (∀ cap : JSStr, findParamAux (cus "filename") filenameClass
        (jsToLower (hgetD p.headers (cus "content-disposition"))) = some cap →
      ∀ c ∈ cap, ¬(65 ≤ c ∧ c ≤ 90)) := by
  constructor
  · simp only [processPart, hdisp, if_true, List.map_append]
    rfl
  · intro cap hcap c hc
    exact jsToLower_no_upper _ c (findParamAux_subset _ _ _ cap hcap c hc)

/-- Witness for C9 at a concrete part. -/
theorem claim_C9_filename_from_lowercased_witness :
    (processPart trivialDecoders ⟨[], [], []⟩
      ⟨[(cus "content-disposition", cus "attachment; filename=Report.TXT")],
       cus "data"⟩).attachments.map Attachment.filename =
      ([] : List Attachment).map Attachment.filename ++
        [decodeMimeHeader trivialDecoders
          ((findParamAux (cus "filename") filenameClass
            (jsToLower (cus "attachment; filename=Report.TXT"))).getD
            (cus "attachment"))] :=
  (claim_C9_filename_from_lowercased trivialDecoders ⟨[], [], []⟩
    ⟨[(cus "content-disposition", cus "attachment; filename=Report.TXT")],
     cus "data"⟩ (by decide)).1

end TempMail
